import Mathlib

/-!
Verification of the suggestive-service autocomplete engine.

Shallow embedding of the trie-based autocomplete engine from `app.py`
(classes `Node`, `Trie`, `ReversedTrie`, `Suggester`, the `preprocess_query`
helper and the `/suggest/` route), together with proofs and refutations of
the specification claims.

Modelling conventions:
* Python strings are `List Char`; `strData` converts a Lean string literal.
* Python floats are modelled as `ℚ`: every weight handled by the program is
  produced by `+1.0` counting or the literal corpora, where float arithmetic
  and comparison agree exactly with rational arithmetic.
* A Python `dict` keyed by single characters is an insertion-ordered
  association list `List (Char × Node)`; dict key uniqueness is the
  predicate `wfNode` below, and `dict[c] = v` on an existing key keeps the
  key's position (`replaceChild`) while a new key is appended at the end.
* Code that mutates in place is translated to state-passing style; code
  that raises is translated to `Except`.
-/

namespace SuggestService

/-- The character list underlying a string literal (Python `str` as a list). -/
def strData (s : String) : List Char := s.data

/-- The `Node` dataclass from `app.py`: the dataclass has exactly the fields
`children : Dict[str, Node]` (insertion-ordered, unique keys) and
`value : float` (0 meaning "no terminal here").  The `is_end` attribute
mentioned in its docstring is not a field of the dataclass; the only writes
to it (in `remove_query`) never influence `children`/`value` observables,
see `removeQuery` below. -/
inductive Node : Type where
  | mk (children : List (Char × Node)) (value : ℚ) : Node

/-- The `children` dict of a node. -/
def Node.children : Node → List (Char × Node)
  | .mk ch _ => ch

/-- The `value` field of a node. -/
def Node.value : Node → ℚ
  | .mk _ v => v

/-- Model of `Node()`: fresh node, empty children dict, value 0. -/
def Node.empty : Node := .mk [] 0

/-- Python `node.children[c]` read / `c in node.children` test:
first (and, for a dict, only) binding of key `c`. -/
def lookupChild : List (Char × Node) → Char → Option Node
  | [], _ => none
  | (c, n) :: rest, d => if c = d then some n else lookupChild rest d

/-- Python `node.children[c] = m` on an existing key `c`: the binding is
updated in place, keeping its position in the dict order. -/
def replaceChild : List (Char × Node) → Char → Node → List (Char × Node)
  | [], _, _ => []
  | (c, n) :: rest, d, m =>
    if c = d then (c, m) :: rest else (c, n) :: replaceChild rest d m

/-- Model of `Trie.add_query(query, value)`: walk/create one node per character
(a missing key is appended at the end of the dict, a present key is
followed), then set the final node's `value`. -/
def addQuery : Node → List Char → ℚ → Node
  | .mk ch _, [], w => .mk ch w
  | .mk ch v, c :: cs, w =>
    match lookupChild ch c with
    | some child => .mk (replaceChild ch c (addQuery child cs w)) v
    | none => .mk (ch ++ [(c, addQuery Node.empty cs w)]) v

/-- The walk loop shared by `suffixes` and `remove_query`: follow the
characters from the given node, `none` when a character is missing. -/
def findNode : Node → List Char → Option Node
  | n, [] => some n
  | .mk ch _, c :: cs =>
    match lookupChild ch c with
    | none => none
    | some child => findNode child cs

mutual
/-- Model of `_collect_suffixes(node, current_suffix)` inside `Trie.suffixes`:
emit `(value, current_suffix)` when `value > 0`, then recurse into the
children in dict order. -/
def collectSuffixes : Node → List Char → List (ℚ × List Char)
  | .mk ch v, pre =>
    (if 0 < v then [(v, pre)] else []) ++ collectSuffixesKids ch pre
/-- The `for char, child_node in node.children.items()` loop of
`_collect_suffixes`. -/
def collectSuffixesKids : List (Char × Node) → List Char → List (ℚ × List Char)
  | [], _ => []
  | (c, n) :: rest, pre =>
    collectSuffixes n (pre ++ [c]) ++ collectSuffixesKids rest pre
end

/-- Python `a < b` on a pair of characters (code-point comparison). -/
def charLtB (a b : Char) : Bool := a.val < b.val

/-- Python `a < b` on strings: lexicographic by code point. -/
def strLtB : List Char → List Char → Bool
  | [], [] => false
  | [], _ :: _ => true
  | _ :: _, [] => false
  | a :: as, b :: bs =>
    if charLtB a b then true else if charLtB b a then false else strLtB as bs

/-- Python `a < b` on `(float, str)` tuples: compare weights, then strings. -/
def pairLtB (a b : ℚ × List Char) : Bool :=
  if a.1 < b.1 then true
  else if b.1 < a.1 then false
  else strLtB a.2 b.2

/-- Holds when `a` may precede `b` in the output of Python's
`sorted(..., reverse=True)` on `(float, str)` tuples: not `a < b`. -/
def descLe (a b : ℚ × List Char) : Prop := pairLtB a b = false

instance : DecidableRel descLe := fun a b =>
  inferInstanceAs (Decidable (pairLtB a b = false))

/-- Python `sorted(l, reverse=True)` on `(float, str)` tuples. -/
def pySortedRev (l : List (ℚ × List Char)) : List (ℚ × List Char) :=
  l.insertionSort descLe

/-- The strict order on `(float, str)` tuples that `pairLtB` decides:
weights first, then strings lexicographically. -/
def pairLt (a b : ℚ × List Char) : Prop :=
  a.1 < b.1 ∨ (a.1 = b.1 ∧ List.Lex (· < ·) a.2 b.2)

/-- Model of `Trie.suffixes(prefix)`: walk the prefix from the root (empty result if
the path is incomplete), collect all `(value, prefix ++ path)` pairs of
terminal nodes below, and return them sorted with `sorted(..., reverse=True)`. -/
def suffixes (t : Node) (p : List Char) : List (ℚ × List Char) :=
  match findNode t p with
  | none => []
  | some n => pySortedRev (collectSuffixes n p)

mutual
/-- Model of `_count_recursive` inside `Trie.count_queries`. -/
def countRec : Node → Nat
  | .mk ch v => (if 0 < v then 1 else 0) + countRecKids ch
/-- The `for child_node in node.children.values()` loop of `_count_recursive`. -/
def countRecKids : List (Char × Node) → Nat
  | [] => 0
  | (_, n) :: rest => countRec n + countRecKids rest
end

/-- Model of `Trie.count_queries()`. -/
def countQueries (t : Node) : Nat := countRec t

/-- Model of `Trie.clear()`: `self.root.children.clear()` — the children dict is
emptied, but the root's own `value` field is left untouched. -/
def clear : Node → Node
  | .mk _ v => .mk [] v

/-- Model of `Trie.remove_query(query)`.  The source walks the query, raising
`Exception(f"Query ... not found!")` (before any mutation) as soon as a
character is missing; on success it sets the final node's `value` to 0 and
`is_end = False`.  Its subsequent "clean up empty nodes" loop provably
never removes a node: `path` ends at the *parent* of the final node (the
loop `path.append(node)` runs before `node = node.children[char]`), and
that parent still has the final node as a child, so
`not path[i].children` is false at the first iteration and the loop
breaks (for the empty query the `path[i] != self.root` conjunct fails).
Hence the loop, and the `is_end` writes, leave `children`/`value` of every
node unchanged, and the faithful observable translation is: walk, raise on
a missing character, otherwise zero out the terminal value. -/
def removeQuery : Node → List Char → Except Unit Node
  | .mk ch _, [] => .ok (.mk ch 0)
  | .mk ch v, c :: cs =>
    match lookupChild ch c with
    | none => .error ()
    | some child =>
      match removeQuery child cs with
      | .error e => .error e
      | .ok child' => .ok (.mk (replaceChild ch c child') v)

/-- Model of `ReversedTrie.add_query(query, value)`: `Trie.add_query` on the
reversed string. -/
def addQueryRev (t : Node) (q : List Char) (w : ℚ) : Node :=
  addQuery t q.reverse w

mutual
/-- Model of `find_end_of_suffix(node)` inside `ReversedTrie.prefixes`: a full
pre-order traversal that, once per child iterated, appends
`node.children[end_of_suffix]` whenever `end_of_suffix` is a key of the
*current* node's children, then recurses into the child. -/
def findEndOfSuffix : Node → Char → List Node
  | .mk ch _, e => findEndOfSuffixKids ch ch e
/-- The `for child in node.children` loop of `find_end_of_suffix`;
`full` is the children dict of the node whose children are iterated. -/
def findEndOfSuffixKids :
    List (Char × Node) → List (Char × Node) → Char → List Node
  | _, [], _ => []
  | full, (_, child) :: rest, e =>
    (match lookupChild full e with | some s => [s] | none => []) ++
      findEndOfSuffix child e ++ findEndOfSuffixKids full rest e
end

mutual
/-- Model of `dfs(node, prefix)` inside `ReversedTrie.prefixes`: emit
`(value, prefix[::-1])` when `value > 0`, recurse into children in dict
order with `prefix + char`. -/
def dfsCollect : Node → List Char → List (ℚ × List Char)
  | .mk ch v, pre =>
    (if 0 < v then [(v, pre.reverse)] else []) ++ dfsCollectKids ch pre
/-- The `for char, child_node in node.children.items()` loop of `dfs`. -/
def dfsCollectKids : List (Char × Node) → List Char → List (ℚ × List Char)
  | [], _ => []
  | (c, n) :: rest, pre =>
    dfsCollect n (pre ++ [c]) ++ dfsCollectKids rest pre
end

/-- Model of `ReversedTrie.prefixes(suffix)`: with `end_of_suffix` the last
character of `suffix` (empty suffix: no starting node ever matches and the
result is `[]`), gather `starting_nodes` via `find_end_of_suffix(root)`
and run `dfs(node, suffix[-1])` from each. -/
def prefixes (t : Node) (suffix : List Char) : List (ℚ × List Char) :=
  match suffix.getLast? with
  | none => []
  | some e => ((findEndOfSuffix t e).map (fun s => dfsCollect s [e])).flatten

/-- The `Suggester` dataclass: one forward trie and one reversed trie. -/
structure Suggester where
  trie : Node
  reversed_trie : Node

/-- Model of `Suggester()`. -/
def Suggester.empty : Suggester := ⟨Node.empty, Node.empty⟩

/-- Model of `Suggester.fit(queries)`: insert every pair into both tries, in the
iteration order of the mapping (modelled as a list of pairs). -/
def fit (s : Suggester) (queries : List (List Char × ℚ)) : Suggester :=
  queries.foldl
    (fun acc qv =>
      ⟨addQuery acc.trie qv.1 qv.2, addQueryRev acc.reversed_trie qv.1 qv.2⟩)
    s

/-- Model of `Suggester.suggest_query(query)`: computes the forward candidates, the
backward candidates (on the reversed query), and the deduplicated merge
`list(set(...))` — which is then *discarded*: the function returns only
`suffix_suggestions`.  (`set` iteration order is unspecified in Python;
`dedup` stands in for one representative, the value being dead code.) -/
def suggestQuery (s : Suggester) (query : List Char) : List (ℚ × List Char) :=
  let suffix_suggestions := suffixes s.trie query
  let prefix_suggestions := prefixes s.reversed_trie query.reverse
  let suggestions := (suffix_suggestions ++ prefix_suggestions).dedup
  suffix_suggestions

/-- A character kept by the regex `[^a-zA-Z0-9 ]` deletion in
`preprocess_query`. -/
def isAllowed (c : Char) : Bool :=
  (('a' ≤ c && c ≤ 'z') || ('A' ≤ c && c ≤ 'Z') ||
    ('0' ≤ c && c ≤ '9') || c = ' ')

/-- Model of `re.sub(r"\s+", " ", query)` after the character filter: the only
whitespace left is `' '`, so each maximal run of spaces collapses to a
single space (a space followed by another space is dropped). -/
def squeezeSpaces : List Char → List Char
  | [] => []
  | [c] => [c]
  | c :: d :: rest =>
    if c = ' ' ∧ d = ' ' then squeezeSpaces (d :: rest)
    else c :: squeezeSpaces (d :: rest)

/-- Python `str.strip()` after the filter: drop leading and trailing spaces. -/
def stripSpaces (l : List Char) : List Char :=
  ((l.dropWhile (fun d => d = ' ')).reverse.dropWhile (fun d => d = ' ')).reverse

/-- Model of `preprocess_query(query)`: delete characters outside `[a-zA-Z0-9 ]`,
collapse whitespace runs, strip, lower-case. -/
def preprocessQuery (query : List Char) : List Char :=
  (stripSpaces (squeezeSpaces (query.filter isAllowed))).map Char.toLower

/-- Python `l[:k]` for an `int` `k`: first `k` elements when `k ≥ 0`,
all but the last `-k` elements when `k < 0`. -/
def pySlice (l : List (ℚ × List Char)) (k : Int) : List (ℚ × List Char) :=
  if 0 ≤ k then l.take k.toNat else l.take (l.length - (-k).toNat)

/-- The JSON body returned by the `/suggest/` route. -/
structure SuggestResponse where
  query : List Char
  suggestions : List (List Char)
deriving DecidableEq

/-- The `/suggest/` route handler `suggest(query, k=10)`: normalize the
query, gather `suggest_query` candidates, sort with
`suggestions.sort(reverse=True)`, slice `[:k]`, and project the strings.
The source performs no validation of `k` whatsoever. -/
def suggestRoute (sg : Suggester) (rawQuery : List Char) (k : Int) :
    SuggestResponse :=
  let q := preprocessQuery rawQuery
  let suggestions : List (ℚ × List Char) := []
  let full_query_suggestions := suggestQuery sg q
  let suggestions := suggestions ++ full_query_suggestions
  let sorted := pySortedRev suggestions
  let top_k_suggestions := pySlice sorted k
  ⟨q, top_k_suggestions.map (fun s => s.2)⟩

mutual
/-- Well-formedness of a node as a picture of Python objects: every
`children` dict has pairwise-distinct keys (a Python `dict` cannot hold a
key twice), recursively.  Every tree the program builds satisfies this. -/
def wfNode : Node → Bool
  | .mk ch _ => decide (ch.map Prod.fst).Nodup && wfKids ch
/-- Well-formedness of every node stored in a children list. -/
def wfKids : List (Char × Node) → Bool
  | [] => true
  | (_, n) :: rest => wfNode n && wfKids rest
end

mutual
/-- Holds when a node is not prunable (it has a child or a positive
weight) and the same holds for all of its descendants. -/
def alive : Node → Bool
  | .mk ch v => (!ch.isEmpty || decide (0 < v)) && aliveKids ch
/-- Conjunction of `alive` over a children list. -/
def aliveKids : List (Char × Node) → Bool
  | [] => true
  | (_, n) :: rest => alive n && aliveKids rest
end

/-- The pruning invariant of the spec: every node reachable from the root,
other than the root itself, has at least one child or a positive weight. -/
def prunedInvariant (root : Node) : Bool := aliveKids root.children

/-- Whether `k` is a stored key of the trie: its character path exists and
ends at a node with positive weight. -/
def isStored (t : Node) (k : List Char) : Bool :=
  match findNode t k with
  | some m => decide (0 < m.value)
  | none => false

/-- State-passing form of `Trie.suffixes`: the pair of the result and the
trie object graph after the call.  Every statement of the source reads
(`node.children`, `node.value`); none assigns to any node attribute, so
the translation returns the input trie itself as the post-state. -/
def suffixesOp (t : Node) (p : List Char) :
    List (ℚ × List Char) × Node := (suffixes t p, t)

/-- State-passing form of `ReversedTrie.prefixes`: the source mutates only
the local accumulators `result` and `starting_nodes`, never a node
attribute, so the post-state is the input trie itself. -/
def prefixesOp (t : Node) (fragment : List Char) :
    List (ℚ × List Char) × Node := (prefixes t fragment, t)

/-- State-passing form of `Suggester.suggest_query`: it only calls the two
readers above and builds local lists, so the post-state is the input
suggester itself (both tries unchanged, every node untouched). -/
def suggestQueryOp (s : Suggester) (query : List Char) :
    List (ℚ × List Char) × Suggester := (suggestQuery s query, s)

/-- The corpus of the C1/C10 example (`sample_suggester` in the repo's
tests), in its Python-dict insertion order. -/
def corpusC1 : List (List Char × ℚ) :=
  [(strData "apple pie", 1), (strData "pie apple", 20),
   (strData "triple threat", 2), (strData "banana boat", 3),
   (strData "grape juice", 4), (strData "apple bubble", 1),
   (strData "blueberry muffin", 5), (strData "i love apple", 2)]

/-- The suggester fitted with `corpusC1`. -/
def sugC1 : Suggester := fit Suggester.empty corpusC1

/-- The reversed trie of the C2 example (`sample_reverse_trie` in the
repo's tests), built in insertion order. -/
def rtrieC2 : Node :=
  addQueryRev (addQueryRev (addQueryRev (addQueryRev (addQueryRev Node.empty
    (strData "apple pie") 1) (strData "apple") 2) (strData "orange juice") 3)
    (strData "grape") 4) (strData "mango shake") 5

/-- The trie reached by `insert("a", 1.0)` from empty, for the C3 input. -/
def trieC3 : Node := addQuery Node.empty (strData "a") 1

/-- The state `remove_query("a")` leaves behind on `trieC3`: the node of
`'a'` stays attached with no children and weight 0. -/
def trieC3After : Node := .mk [('a', .mk [] 0)] 0

/-- A trie storing only `"ab"`, so that `"a"` exists as a path but is not
a stored key (C4). -/
def trieC4 : Node := addQuery Node.empty (strData "ab") 1

/-- A trie holding the empty string as a key with weight 1 (C5). -/
def trieC5 : Node := addQuery Node.empty [] 1

/-- The trie of the C6 example, built in insertion order. -/
def trieC6 : Node :=
  addQuery (addQuery (addQuery (addQuery Node.empty (strData "apple") 1)
    (strData "app") 2) (strData "application") 3) (strData "triple") 4

/-- A two-key suggester for exercising the `/suggest/` route (C7). -/
def sugC7 : Suggester :=
  fit Suggester.empty [(strData "a", 1), (strData "ab", 2)]

/-! Order lemmas: `strLtB` and `pairLtB` decide the lexicographic strict
orders, and the reverse-sort relation `descLe` is total and transitive. -/

theorem charLtB_eq_decide (a b : Char) : charLtB a b = decide (a < b) := rfl

theorem strLtB_cons (a b : Char) (as bs : List Char) :
    strLtB (a :: as) (b :: bs) =
      if a < b then true else if b < a then false else strLtB as bs := by
  by_cases h1 : a < b
  · simp [strLtB, charLtB_eq_decide, h1]
  · by_cases h2 : b < a
    · simp [strLtB, charLtB_eq_decide, h1, h2]
    · simp [strLtB, charLtB_eq_decide, h1, h2]

theorem strLtB_iff : ∀ (a b : List Char), strLtB a b = true ↔ List.Lex (· < ·) a b
  | [], [] => by
    constructor
    · intro h; simp [strLtB] at h
    · intro h; cases h
  | [], _ :: _ => by
    constructor
    · intro _; exact List.Lex.nil
    · intro _; rfl
  | _ :: _, [] => by
    constructor
    · intro h; simp [strLtB] at h
    · intro h; cases h
  | a :: as, b :: bs => by
    rw [strLtB_cons]
    constructor
    · intro h
      by_cases hab : a < b
      · exact List.Lex.rel hab
      · by_cases hba : b < a
        · rw [if_neg hab, if_pos hba] at h
          exact absurd h (by simp)
        · have he : a = b := le_antisymm (not_lt.mp hba) (not_lt.mp hab)
          subst he
          rw [if_neg hab, if_neg hba] at h
          exact List.Lex.cons ((strLtB_iff as bs).mp h)
    · intro h
      cases h with
      | rel hr => rw [if_pos hr]
      | cons ht =>
        rw [if_neg (lt_irrefl a), if_neg (lt_irrefl a)]
        exact (strLtB_iff as bs).mpr ht

theorem pairLtB_iff (a b : ℚ × List Char) : pairLtB a b = true ↔ pairLt a b := by
  unfold pairLtB pairLt
  by_cases h1 : a.1 < b.1
  · simp [h1]
  · by_cases h2 : b.1 < a.1
    · have hne : ¬ a.1 = b.1 := fun he => lt_irrefl a.1 (he ▸ h2)
      simp [h1, h2, hne]
    · have he : a.1 = b.1 := le_antisymm (not_lt.mp h2) (not_lt.mp h1)
      simp [h1, h2, he, strLtB_iff]

theorem lexCharLt_trans {a b c : List Char} :
    List.Lex (· < ·) a b → List.Lex (· < ·) b c → List.Lex (· < ·) a c := by
  intro h1 h2
  induction h1 generalizing c with
  | nil =>
    cases h2 with
    | rel h => exact List.Lex.nil
    | cons h => exact List.Lex.nil
  | @rel x l1 y l2 h =>
    cases h2 with
    | rel h' => exact List.Lex.rel (lt_trans h h')
    | cons h' => exact List.Lex.rel h
  | @cons x l1 l2 h ih =>
    cases h2 with
    | rel h' => exact List.Lex.rel h'
    | cons h' => exact List.Lex.cons (ih h')

theorem lexCharLt_irrefl : ∀ (a : List Char), ¬ List.Lex (· < ·) a a
  | [], h => by cases h
  | _ :: _, h => by
    cases h with
    | rel h' => exact lt_irrefl _ h'
    | cons h' => exact lexCharLt_irrefl _ h'

theorem lexCharLt_trichotomy : ∀ (a b : List Char),
    List.Lex (· < ·) a b ∨ a = b ∨ List.Lex (· < ·) b a
  | [], [] => Or.inr (Or.inl rfl)
  | [], _ :: _ => Or.inl List.Lex.nil
  | _ :: _, [] => Or.inr (Or.inr List.Lex.nil)
  | a :: as, b :: bs => by
    rcases lt_trichotomy a b with h | h | h
    · exact Or.inl (List.Lex.rel h)
    · subst h
      rcases lexCharLt_trichotomy as bs with h' | h' | h'
      · exact Or.inl (List.Lex.cons h')
      · exact Or.inr (Or.inl (by rw [h']))
      · exact Or.inr (Or.inr (List.Lex.cons h'))
    · exact Or.inr (Or.inr (List.Lex.rel h))

theorem pairLt_trans {a b c : ℚ × List Char} :
    pairLt a b → pairLt b c → pairLt a c := by
  rintro (h1 | ⟨e1, l1⟩) (h2 | ⟨e2, l2⟩)
  · exact Or.inl (lt_trans h1 h2)
  · exact Or.inl (e2 ▸ h1)
  · exact Or.inl (e1 ▸ h2)
  · exact Or.inr ⟨e1.trans e2, lexCharLt_trans l1 l2⟩

theorem pairLt_irrefl (a : ℚ × List Char) : ¬ pairLt a a := by
  rintro (h | ⟨_, hl⟩)
  · exact lt_irrefl _ h
  · exact lexCharLt_irrefl a.2 hl

theorem pairLt_asymm {a b : ℚ × List Char} : pairLt a b → ¬ pairLt b a :=
  fun h1 h2 => pairLt_irrefl a (pairLt_trans h1 h2)

theorem pairLt_trichotomy (a b : ℚ × List Char) :
    pairLt a b ∨ a = b ∨ pairLt b a := by
  rcases lt_trichotomy a.1 b.1 with h | h | h
  · exact Or.inl (Or.inl h)
  · rcases lexCharLt_trichotomy a.2 b.2 with hl | hl | hl
    · exact Or.inl (Or.inr ⟨h, hl⟩)
    · exact Or.inr (Or.inl (Prod.ext h hl))
    · exact Or.inr (Or.inr (Or.inr ⟨h.symm, hl⟩))
  · exact Or.inr (Or.inr (Or.inl h))

theorem descLe_iff (a b : ℚ × List Char) : descLe a b ↔ ¬ pairLt a b := by
  unfold descLe
  rw [← pairLtB_iff]
  exact ⟨fun h hT => by simp [h] at hT, fun h => by
    cases hb : pairLtB a b with
    | false => rfl
    | true => exact absurd hb h⟩

theorem descLe_total (a b : ℚ × List Char) : descLe a b ∨ descLe b a := by
  rcases pairLt_trichotomy a b with h | h | h
  · exact Or.inr ((descLe_iff b a).mpr (pairLt_asymm h))
  · exact Or.inl ((descLe_iff a b).mpr (h ▸ pairLt_irrefl a))
  · exact Or.inl ((descLe_iff a b).mpr (pairLt_asymm h))

theorem descLe_trans {a b c : ℚ × List Char} :
    descLe a b → descLe b c → descLe a c := by
  intro hab hbc
  rw [descLe_iff] at hab hbc ⊢
  intro hac
  rcases pairLt_trichotomy a b with h | h | h
  · exact hab h
  · exact hbc (h ▸ hac)
  · rcases pairLt_trichotomy b c with h' | h' | h'
    · exact hbc h'
    · exact pairLt_asymm hac (h' ▸ h)
    · exact pairLt_asymm hac (pairLt_trans h' h)

/-- C1: the claim states `suggest(query)` returns the deduplicated merge of
the forward candidates `Trie.suffixes(q)` and the backward candidates
`ReversedTrie.prefixes(q)`, equal to a 5-element set at the sample corpus
and query `"ple"`.  The source computes the merged set but returns only
`suffix_suggestions`; at the sample corpus no stored key starts with
`"ple"`, so the returned candidate list is empty instead of the claimed
5-element set — the code contradicts its own docstring example and the
repository's test suite. -/
theorem c1_suggest_code_eval :
    suggestQuery sugC1 (strData "ple") = [] ∧
    (20, strData "pie apple") ∉ suggestQuery sugC1 (strData "ple") := by
  have h : suggestQuery sugC1 (strData "ple") = [] := by decide
  refine ⟨h, ?_⟩
  rw [h]
  simp

/-- C2: the claim states `prefixes(fragment)` returns exactly the
substring matches of the stored keys.  The source anchors only on the
*last* character of the fragment, from every position of the tree, and
duplicates hits: at the sample reversed trie the result for `"pie"` is a
7-element list rather than `[(1.0, "apple pie")]`, and the result for
`"shake"` (identical, since both fragments end in `'e'`) contains the
claimed-excluded `(4.0, "grape")` — contradicting the repository's test
suite and the docstring. -/
theorem c2_prefixes_code_eval :
    prefixes rtrieC2 (strData "pie") =
      [(1, strData "apple pie"), (2, strData "apple"),
       (3, strData "orange juice"), (4, strData "grape"),
       (5, strData "mango shake"), (1, strData "apple"),
       (3, strData "orange")] ∧
    prefixes rtrieC2 (strData "pie") ≠ [(1, strData "apple pie")] ∧
    (5, strData "mango shake") ∈ prefixes rtrieC2 (strData "shake") ∧
    (4, strData "grape") ∈ prefixes rtrieC2 (strData "shake") :=
  ⟨by decide, by decide, by decide, by decide⟩

/-- C3: the claim states the pruning invariant — after any insert/remove
sequence no reachable non-root node is childless with weight 0.  The
source's clean-up loop never prunes (it records the parent instead of each
visited node and breaks at its first iteration), so after
`insert("a", 1.0); remove("a")` the node of `'a'` stays attached with no
children and weight 0, violating the invariant. -/
theorem c3_prune_code_eval :
    isStored trieC3 (strData "a") = true ∧
    removeQuery trieC3 (strData "a") = .ok trieC3After ∧
    prunedInvariant trieC3After = false :=
  ⟨rfl, rfl, rfl⟩

/-- C5 counterexample: after `insert("", 1.0)`, `clear()` leaves the
root's weight in place, so `count()` is 1 (not 0) and `suffixes("")`
still reports the empty key — refuting the claim at this input. -/
theorem c5_counterexample :
    countQueries (clear trieC5) ≠ 0 ∧
    suffixes (clear trieC5) (strData "") ≠ [] :=
  ⟨by decide, by decide⟩

/-- C5 as amended: `clear()` empties the root's children only.  Hence
after `clear()` every non-empty prefix has no suffixes, while the root
weight survives: `count()` is 1 exactly when the empty string was stored
with positive weight (0 otherwise), and `suffixes("")` still reports it. -/
theorem c5_clear_amended :
    ∀ (t : Node),
      (∀ p : List Char, p ≠ [] → suffixes (clear t) p = []) ∧
      countQueries (clear t) = (if 0 < t.value then 1 else 0) ∧
      suffixes (clear t) [] =
        (if 0 < t.value then [(t.value, [])] else []) := by
  intro t
  cases t with
  | mk ch v =>
    refine ⟨?_, ?_, ?_⟩
    · intro p hp
      cases p with
      | nil => exact absurd rfl hp
      | cons c cs => rfl
    · simp [countQueries, clear, countRec, countRecKids, Node.value]
    · by_cases h : 0 < v
      · simp [clear, suffixes, findNode, collectSuffixes, collectSuffixesKids,
          pySortedRev, Node.value, h]
      · simp [clear, suffixes, findNode, collectSuffixes, collectSuffixesKids,
          pySortedRev, Node.value, h]

/-- C5 witness: instantiating the amended claim on the trie that stored
the empty key, at the non-empty prefix `"x"`. -/
theorem c5_witness : suffixes (clear trieC5) (strData "x") = [] :=
  (c5_clear_amended trieC5).1 (strData "x") (by decide)

/-- C6: for every trie state and every prefix, `suffixes` is sorted
descending by weight with ties broken by descending lexicographic key
(each adjacent pair is non-increasing in the Python tuple order `pairLt`),
and the documented four-key example evaluates exactly as claimed. -/
theorem c6_suffixes_sorted :
    (∀ (t : Node) (p : List Char), List.Sorted descLe (suffixes t p)) ∧
    suffixes trieC6 (strData "app") =
      [(3, strData "application"), (2, strData "app"),
       (1, strData "apple")] := by
  constructor
  · intro t p
    rcases h : findNode t p with _ | n
    · simp [suffixes, h]
    · simp only [suffixes, h]
      haveI : IsTotal (ℚ × List Char) descLe := ⟨descLe_total⟩
      haveI : IsTrans (ℚ × List Char) descLe :=
        ⟨fun _ _ _ hab hbc => descLe_trans hab hbc⟩
      exact List.sorted_insertionSort descLe _
  · decide

/-- C7 counterexample: the route performs no validation of `k`: called
with `k = -1` it reaches the trie and answers normally with Python slice
semantics (all but the last candidate), instead of rejecting the negative
`k` with `InvalidArgument`. -/
theorem c7_counterexample :
    suggestRoute sugC7 (strData "a") (-1) =
      ⟨strData "a", [strData "ab"]⟩ := by decide

/-- C7 as amended: the boundary applies Python slice semantics to `k`
without validation: for `k ≥ 0` at most `k` suggestions are returned and
`k = 0` yields `[]`; a negative `k` is not rejected — it yields all but
the last `|k|` candidates. -/
theorem c7_topk_amended :
    ∀ (sg : Suggester) (q : List Char) (k : Int),
      (0 ≤ k → (suggestRoute sg q k).suggestions.length ≤ k.toNat) ∧
      (suggestRoute sg q 0).suggestions = [] ∧
      (k < 0 → (suggestRoute sg q k).suggestions.length =
        (suggestQuery sg (preprocessQuery q)).length - (-k).toNat) := by
  intro sg q k
  refine ⟨?_, ?_, ?_⟩
  · intro hk
    simp only [suggestRoute, pySlice, List.nil_append, if_pos hk,
      List.length_map, List.length_take]
    exact min_le_left _ _
  · simp [suggestRoute, pySlice]
  · intro hk
    have hk' : ¬ (0 : Int) ≤ k := not_le.mpr hk
    simp only [suggestRoute, pySlice, List.nil_append, if_neg hk',
      List.length_map, List.length_take]
    rw [Nat.min_eq_left (Nat.sub_le _ _)]
    simp [pySortedRev, List.length_insertionSort]

/-- C7 witness: the amended claim instantiated at the two-key suggester
with `k = 2`. -/
theorem c7_witness :
    (suggestRoute sugC7 (strData "a") 2).suggestions.length ≤
      (2 : Int).toNat :=
  (c7_topk_amended sugC7 (strData "a") 2).1 (by decide)

/-- C9: the reader-facing operations are pure reads: in state-passing form
each returns its input trie/suggester unchanged as the post-state — the
sources of `suffixes`, `prefixes` and `suggest_query` contain no
assignment to any node attribute, only reads and local accumulators. -/
theorem c9_readers_pure :
    ∀ (t : Node) (p f : List Char) (s : Suggester) (q : List Char),
      (suffixesOp t p).2 = t ∧ (prefixesOp t f).2 = t ∧
      (suggestQueryOp s q).2 = s :=
  fun _ _ _ _ _ => ⟨rfl, rfl, rfl⟩

/-! Lemmas about children-dict lookups, updates and walks, used for the
remove/insert claims. -/

theorem lookupChild_mem : ∀ {ch : List (Char × Node)} {c : Char} {n : Node},
    lookupChild ch c = some n → (c, n) ∈ ch := by
  intro ch
  induction ch with
  | nil => intro c n h; simp [lookupChild] at h
  | cons hd rest ih =>
    intro c n h
    obtain ⟨c0, n0⟩ := hd
    by_cases he : c0 = c
    · subst he
      rw [lookupChild, if_pos rfl] at h
      injection h with h
      subst h
      exact List.mem_cons_self _ _
    · rw [lookupChild, if_neg he] at h
      exact List.mem_cons_of_mem _ (ih h)

theorem lookupChild_key_mem {ch : List (Char × Node)} {c : Char} {n : Node}
    (h : lookupChild ch c = some n) : c ∈ ch.map Prod.fst :=
  List.mem_map.mpr ⟨(c, n), lookupChild_mem h, rfl⟩

theorem lookupChild_none {ch : List (Char × Node)} {c : Char}
    (h : lookupChild ch c = none) : c ∉ ch.map Prod.fst := by
  induction ch with
  | nil => simp
  | cons hd rest ih =>
    obtain ⟨c0, n0⟩ := hd
    by_cases he : c0 = c
    · subst he
      simp [lookupChild] at h
    · rw [lookupChild, if_neg he] at h
      intro hmem
      rw [List.map_cons, List.mem_cons] at hmem
      rcases hmem with he' | hm
      · exact he he'.symm
      · exact ih h hm

theorem lookupChild_append_right {ch : List (Char × Node)} {c : Char}
    (x : Node) (h : lookupChild ch c = none) :
    lookupChild (ch ++ [(c, x)]) c = some x := by
  induction ch with
  | nil => simp [lookupChild]
  | cons hd rest ih =>
    obtain ⟨c0, n0⟩ := hd
    by_cases he : c0 = c
    · subst he; simp [lookupChild] at h
    · rw [lookupChild, if_neg he] at h
      rw [List.cons_append, lookupChild, if_neg he]
      exact ih h

theorem replaceChild_lookup {ch : List (Char × Node)} {c : Char} {n : Node}
    (m : Node) (h : lookupChild ch c = some n) :
    lookupChild (replaceChild ch c m) c = some m := by
  induction ch with
  | nil => simp [lookupChild] at h
  | cons hd rest ih =>
    obtain ⟨c0, n0⟩ := hd
    by_cases he : c0 = c
    · subst he
      simp [replaceChild, lookupChild]
    · rw [lookupChild, if_neg he] at h
      rw [replaceChild, if_neg he, lookupChild, if_neg he]
      exact ih h

theorem replaceChild_keys (ch : List (Char × Node)) (c : Char) (m : Node) :
    (replaceChild ch c m).map Prod.fst = ch.map Prod.fst := by
  induction ch with
  | nil => rfl
  | cons hd rest ih =>
    obtain ⟨c0, n0⟩ := hd
    by_cases he : c0 = c
    · simp [replaceChild, he]
    · simp [replaceChild, he, ih]

theorem replaceChild_self : ∀ {ch : List (Char × Node)} {c : Char} {n : Node},
    lookupChild ch c = some n → replaceChild ch c n = ch := by
  intro ch
  induction ch with
  | nil => intro c n h; simp [lookupChild] at h
  | cons hd rest ih =>
    intro c n h
    obtain ⟨c0, n0⟩ := hd
    by_cases he : c0 = c
    · subst he
      rw [lookupChild, if_pos rfl] at h
      injection h with h
      subst h
      rw [replaceChild, if_pos rfl]
    · rw [lookupChild, if_neg he] at h
      rw [replaceChild, if_neg he, ih h]

theorem findNode_append (t : Node) (p r : List Char) :
    findNode t (p ++ r) = (findNode t p).bind (fun n => findNode n r) := by
  induction p generalizing t with
  | nil => simp [findNode]
  | cons c cs ih =>
    cases t with
    | mk ch v =>
      rw [List.cons_append, findNode]
      cases hl : lookupChild ch c with
      | none => simp [findNode, hl]
      | some child => simp [findNode, hl, ih child]

theorem addQuery_findNode : ∀ (q : List Char) (t : Node) (w : ℚ),
    ∃ m, findNode (addQuery t q w) q = some m ∧ m.value = w := by
  intro q
  induction q with
  | nil =>
    intro t w
    cases t with
    | mk ch v => exact ⟨.mk ch w, rfl, rfl⟩
  | cons c cs ih =>
    intro t w
    cases t with
    | mk ch v =>
      cases hl : lookupChild ch c with
      | some child =>
        obtain ⟨m, hm, hv⟩ := ih child w
        refine ⟨m, ?_, hv⟩
        rw [addQuery, hl]
        show findNode (.mk (replaceChild ch c (addQuery child cs w)) v) (c :: cs) = some m
        rw [findNode, replaceChild_lookup _ hl]
        exact hm
      | none =>
        obtain ⟨m, hm, hv⟩ := ih Node.empty w
        refine ⟨m, ?_, hv⟩
        rw [addQuery, hl]
        show findNode (.mk (ch ++ [(c, addQuery Node.empty cs w)]) v) (c :: cs) = some m
        rw [findNode, lookupChild_append_right _ hl]
        exact hm

theorem mem_collectSuffixesKids :
    ∀ {ch : List (Char × Node)} {c : Char} {n : Node} {pre : List Char}
      {x : ℚ × List Char},
      (c, n) ∈ ch → x ∈ collectSuffixes n (pre ++ [c]) →
      x ∈ collectSuffixesKids ch pre := by
  intro ch
  induction ch with
  | nil => intro c n pre x h _; simp at h
  | cons hd rest ih =>
    intro c n pre x h hx
    obtain ⟨c0, n0⟩ := hd
    rcases List.mem_cons.mp h with he | hm
    · obtain ⟨he1, he2⟩ := Prod.mk.injEq .. ▸ he
      rw [collectSuffixesKids, List.mem_append]
      subst he1
      exact Or.inl (he2 ▸ hx)
    · rw [collectSuffixesKids, List.mem_append]
      exact Or.inr (ih hm hx)

theorem mem_collectSuffixes_of_findNode :
    ∀ (r : List Char) (n : Node) (pre : List Char) (m : Node),
      findNode n r = some m → 0 < m.value →
      (m.value, pre ++ r) ∈ collectSuffixes n pre := by
  intro r
  induction r with
  | nil =>
    intro n pre m hf hv
    rw [findNode, Option.some.injEq] at hf
    subst hf
    cases n with
    | mk ch v =>
      rw [collectSuffixes, List.mem_append]
      refine Or.inl ?_
      have hv' : 0 < v := hv
      simp [Node.value, hv']
  | cons c cs ih =>
    intro n pre m hf hv
    cases n with
    | mk ch v =>
      rw [findNode] at hf
      cases hl : lookupChild ch c with
      | none => rw [hl] at hf; cases hf
      | some child =>
        rw [hl] at hf
        have hx := ih child (pre ++ [c]) m hf hv
        rw [collectSuffixes, List.mem_append]
        refine Or.inr ?_
        have := mem_collectSuffixesKids (lookupChild_mem hl) hx
        simpa [List.append_assoc] using this

theorem mem_pySortedRev {l : List (ℚ × List Char)} {x : ℚ × List Char} :
    x ∈ pySortedRev l ↔ x ∈ l :=
  List.mem_insertionSort descLe

theorem wf_empty : wfNode Node.empty = true := by decide

theorem wfKids_lookup : ∀ {ch : List (Char × Node)} {c : Char} {n : Node},
    wfKids ch = true → lookupChild ch c = some n → wfNode n = true := by
  intro ch
  induction ch with
  | nil => intro c n _ h; simp [lookupChild] at h
  | cons hd rest ih =>
    intro c n hwf h
    obtain ⟨c0, n0⟩ := hd
    rw [wfKids, Bool.and_eq_true] at hwf
    by_cases he : c0 = c
    · subst he
      rw [lookupChild, if_pos rfl] at h
      injection h with h
      subst h
      exact hwf.1
    · rw [lookupChild, if_neg he] at h
      exact ih hwf.2 h

theorem wfKids_append (a b : List (Char × Node)) :
    wfKids (a ++ b) = (wfKids a && wfKids b) := by
  induction a with
  | nil => simp [wfKids]
  | cons hd rest ih =>
    obtain ⟨c0, n0⟩ := hd
    simp [wfKids, ih, Bool.and_assoc]

theorem wfKids_replaceChild : ∀ {ch : List (Char × Node)} {c : Char} {x : Node},
    wfKids ch = true → wfNode x = true → wfKids (replaceChild ch c x) = true := by
  intro ch
  induction ch with
  | nil => intro c x _ _; rfl
  | cons hd rest ih =>
    intro c x hwf hx
    obtain ⟨c0, n0⟩ := hd
    rw [wfKids, Bool.and_eq_true] at hwf
    by_cases he : c0 = c
    · rw [replaceChild, if_pos he, wfKids, Bool.and_eq_true]
      exact ⟨hx, hwf.2⟩
    · rw [replaceChild, if_neg he, wfKids, Bool.and_eq_true]
      exact ⟨hwf.1, ih hwf.2 hx⟩

theorem wf_addQuery : ∀ (q : List Char) (t : Node) (w : ℚ),
    wfNode t = true → wfNode (addQuery t q w) = true := by
  intro q
  induction q with
  | nil =>
    intro t w hwf
    cases t with
    | mk ch v =>
      rw [addQuery]
      rw [wfNode] at hwf ⊢
      exact hwf
  | cons c cs ih =>
    intro t w hwf
    cases t with
    | mk ch v =>
      rw [wfNode, Bool.and_eq_true] at hwf
      cases hl : lookupChild ch c with
      | some child =>
        simp only [addQuery, hl]
        rw [wfNode, Bool.and_eq_true]
        constructor
        · rw [replaceChild_keys]
          exact hwf.1
        · exact wfKids_replaceChild hwf.2 (ih child w (wfKids_lookup hwf.2 hl))
      | none =>
        simp only [addQuery, hl]
        rw [wfNode, Bool.and_eq_true]
        constructor
        · rw [decide_eq_true_eq, List.map_append]
          refine List.Nodup.append (of_decide_eq_true hwf.1) ?_ ?_
          · simp
          · intro a ha hb
            rw [List.map_cons, List.map_nil, List.mem_singleton] at hb
            subst hb
            exact lookupChild_none hl ha
        · rw [wfKids_append, Bool.and_eq_true]
          refine ⟨hwf.2, ?_⟩
          rw [wfKids, Bool.and_eq_true]
          exact ⟨ih Node.empty w wf_empty, rfl⟩

theorem wf_findNode : ∀ (p : List Char) (t n : Node),
    wfNode t = true → findNode t p = some n → wfNode n = true := by
  intro p
  induction p with
  | nil =>
    intro t n hwf h
    rw [findNode] at h
    injection h with h
    subst h
    exact hwf
  | cons c cs ih =>
    intro t n hwf h
    cases t with
    | mk ch v =>
      rw [wfNode, Bool.and_eq_true] at hwf
      rw [findNode] at h
      cases hl : lookupChild ch c with
      | none => rw [hl] at h; cases h
      | some child =>
        rw [hl] at h
        exact ih child n (wfKids_lookup hwf.2 hl) h

mutual
theorem collectSuffixes_mem : ∀ (n : Node) (pre : List Char) (v : ℚ)
    (s : List Char), wfNode n = true → (v, s) ∈ collectSuffixes n pre →
    ∃ r m, s = pre ++ r ∧ findNode n r = some m ∧ m.value = v ∧ 0 < v
  | .mk ch val, pre, v, s, hwf, hmem => by
    rw [collectSuffixes, List.mem_append] at hmem
    rcases hmem with h | h
    · by_cases hv : 0 < val
      · rw [if_pos hv, List.mem_singleton, Prod.mk.injEq] at h
        obtain ⟨h1, h2⟩ := h
        refine ⟨[], .mk ch val, by simp [h2], rfl, ?_, ?_⟩
        · rw [h1]; rfl
        · rw [h1]; exact hv
      · rw [if_neg hv] at h
        cases h
    · rw [wfNode, Bool.and_eq_true] at hwf
      obtain ⟨c, child, r, m, hlk, hs, hf, hval, hpos⟩ :=
        collectSuffixesKids_mem ch pre v s (of_decide_eq_true hwf.1) hwf.2 h
      refine ⟨c :: r, m, hs, ?_, hval, hpos⟩
      simp only [findNode, hlk]
      exact hf
theorem collectSuffixesKids_mem : ∀ (ch : List (Char × Node))
    (pre : List Char) (v : ℚ) (s : List Char),
    (ch.map Prod.fst).Nodup → wfKids ch = true →
    (v, s) ∈ collectSuffixesKids ch pre →
    ∃ c child r m, lookupChild ch c = some child ∧ s = pre ++ c :: r ∧
      findNode child r = some m ∧ m.value = v ∧ 0 < v
  | [], pre, v, s, _, _, hmem => by
    rw [collectSuffixesKids] at hmem
    cases hmem
  | (c0, n0) :: rest, pre, v, s, hnd, hwf, hmem => by
    rw [wfKids, Bool.and_eq_true] at hwf
    rw [collectSuffixesKids, List.mem_append] at hmem
    rcases hmem with h | h
    · obtain ⟨r, m, hs, hf, hval, hpos⟩ :=
        collectSuffixes_mem n0 (pre ++ [c0]) v s hwf.1 h
      refine ⟨c0, n0, r, m, ?_, ?_, hf, hval, hpos⟩
      · rw [lookupChild, if_pos rfl]
      · rw [hs, List.append_assoc]
        rfl
    · rw [List.map_cons, List.nodup_cons] at hnd
      obtain ⟨c, child, r, m, hlk, hs, hf, hval, hpos⟩ :=
        collectSuffixesKids_mem rest pre v s hnd.2 hwf.2 h
      have hne : ¬ c0 = c := fun he => hnd.1 (he ▸ lookupChild_key_mem hlk)
      refine ⟨c, child, r, m, ?_, hs, hf, hval, hpos⟩
      rw [lookupChild, if_neg hne]
      exact hlk
end

theorem mem_suffixes_of_stored {t : Node} {p r : List Char} {m : Node}
    (hf : findNode t (p ++ r) = some m) (hv : 0 < m.value) :
    (m.value, p ++ r) ∈ suffixes t p := by
  have hsplit := findNode_append t p r
  rw [hf] at hsplit
  cases hp : findNode t p with
  | none => rw [hp] at hsplit; simp at hsplit
  | some np =>
    rw [hp] at hsplit
    simp only [Option.some_bind] at hsplit
    simp only [suffixes, hp]
    rw [mem_pySortedRev]
    exact mem_collectSuffixes_of_findNode r np p m hsplit.symm hv

theorem mem_suffixes_stored {t : Node} {p : List Char} {v : ℚ} {s : List Char}
    (hwf : wfNode t = true) (h : (v, s) ∈ suffixes t p) :
    ∃ m, findNode t s = some m ∧ m.value = v ∧ 0 < v := by
  rcases hp : findNode t p with _ | np
  · simp only [suffixes, hp] at h
    cases h
  · simp only [suffixes, hp] at h
    rw [mem_pySortedRev] at h
    obtain ⟨r, m, hs, hf, hval, hpos⟩ :=
      collectSuffixes_mem np p v s (wf_findNode p t np hwf hp) h
    refine ⟨m, ?_, hval, hpos⟩
    rw [hs, findNode_append, hp]
    simpa using hf

/-- C4 counterexample: in the trie storing only `"ab"`, the key `"a"` is
not stored (its terminal weight is 0), yet `remove("a")` succeeds without
raising — refuting "remove of every absent key raises NotFound". -/
theorem c4_counterexample :
    isStored trieC4 (strData "a") = false ∧
    (removeQuery trieC4 (strData "a")).isOk = true :=
  ⟨rfl, rfl⟩

/-- C4 as amended: `remove(k)` raises `NotFound` exactly when `k`'s
character path does not fully exist in the trie; the raise happens before
any mutation, so the failed call leaves the trie unchanged (the model
returns no new state).  When the path exists but carries no terminal
weight (e.g. `k` is a strict prefix of stored keys), `remove` succeeds
without raising and returns the trie unchanged, so `count` and every
`suffixes(p)` are also unchanged. -/
theorem c4_remove_amended :
    ∀ (t : Node) (k : List Char),
      ((removeQuery t k).isOk = false ↔ findNode t k = none) ∧
      (findNode t k = none → removeQuery t k = .error ()) ∧
      (∀ m, findNode t k = some m → m.value = 0 →
        removeQuery t k = .ok t) := by
  intro t k
  induction k generalizing t with
  | nil =>
    cases t with
    | mk ch v =>
      refine ⟨?_, ?_, ?_⟩
      · constructor
        · intro h
          rw [removeQuery] at h
          exact Bool.noConfusion h
        · intro h
          rw [findNode] at h
          cases h
      · intro h
        rw [findNode] at h
        cases h
      · intro m hm hv
        rw [findNode] at hm
        injection hm with hm
        subst hm
        rw [Node.value] at hv
        rw [removeQuery, hv]
  | cons c cs ih =>
    cases t with
    | mk ch v =>
      cases hl : lookupChild ch c with
      | none =>
        refine ⟨?_, ?_, ?_⟩
        · constructor
          · intro _
            simp only [findNode, hl]
          · intro _
            simp only [removeQuery, hl]
            rfl
        · intro _
          simp only [removeQuery, hl]
        · intro m hm _
          simp only [findNode, hl] at hm
          exact Option.noConfusion hm
      | some child =>
        have ihc := ih child
        refine ⟨?_, ?_, ?_⟩
        · constructor
          · intro h
            simp only [removeQuery, hl] at h
            simp only [findNode, hl]
            cases hr : removeQuery child cs with
            | error e =>
              exact ihc.1.mp (by rw [hr]; rfl)
            | ok child' =>
              rw [hr] at h
              exact Bool.noConfusion h
          · intro h
            simp only [findNode, hl] at h
            have he := ihc.2.1 h
            simp only [removeQuery, hl, he]
            rfl
        · intro h
          simp only [findNode, hl] at h
          have he := ihc.2.1 h
          simp only [removeQuery, hl, he]
        · intro m hm hv
          simp only [findNode, hl] at hm
          have he := ihc.2.2 m hm hv
          simp only [removeQuery, hl, he]
          rw [replaceChild_self hl]

/-- C4 witness: the amended claim instantiated on the `"ab"` trie at the
path-existing absent key `"a"`: `remove` succeeds and returns the trie
unchanged. -/
theorem c4_witness : removeQuery trieC4 (strData "a") = .ok trieC4 :=
  (c4_remove_amended trieC4 (strData "a")).2.2
    (Node.mk [('b', Node.mk [] 1)] 0) rfl rfl

/-- C8: insert/lookup round trip on any well-formed trie state (the
well-formedness predicate `wfNode` only states that every children dict
has unique keys, which is inherent to Python dicts): after
`insert(k, w)` with `w > 0`, `suffixes(p)` contains `(w, k)` for every
prefix `p` of `k = p ++ r`; re-inserting `k` with `w2 > 0`, `w2 ≠ w`
overwrites: the new results contain `(w2, k)` and no longer `(w, k)`
(last write wins). -/
theorem c8_insert_roundtrip :
    ∀ (t : Node) (p r : List Char) (w w2 : ℚ),
      wfNode t = true → 0 < w → 0 < w2 → w ≠ w2 →
      ((w, p ++ r) ∈ suffixes (addQuery t (p ++ r) w) p) ∧
      ((w2, p ++ r) ∈
        suffixes (addQuery (addQuery t (p ++ r) w) (p ++ r) w2) p) ∧
      ((w, p ++ r) ∉
        suffixes (addQuery (addQuery t (p ++ r) w) (p ++ r) w2) p) := by
  intro t p r w w2 hwf hw hw2 hne
  obtain ⟨m1, hm1, hv1⟩ := addQuery_findNode (p ++ r) t w
  obtain ⟨m2, hm2, hv2⟩ :=
    addQuery_findNode (p ++ r) (addQuery t (p ++ r) w) w2
  refine ⟨?_, ?_, ?_⟩
  · have h01 : 0 < m1.value := by rw [hv1]; exact hw
    have h := mem_suffixes_of_stored hm1 h01
    rw [hv1] at h
    exact h
  · have h02 : 0 < m2.value := by rw [hv2]; exact hw2
    have h := mem_suffixes_of_stored hm2 h02
    rw [hv2] at h
    exact h
  · intro hmem
    have hwf2 : wfNode (addQuery (addQuery t (p ++ r) w) (p ++ r) w2) = true :=
      wf_addQuery _ _ _ (wf_addQuery _ _ _ hwf)
    obtain ⟨m, hm, hval, _⟩ := mem_suffixes_stored hwf2 hmem
    rw [hm2] at hm
    injection hm with hm
    subst hm
    exact hne (hval.symm.trans hv2)

/-- C8 witness: the round trip instantiated on the empty trie with
`k = "apple"` split as `"ap" ++ "ple"`, `w = 1`, `w2 = 2`. -/
theorem c8_witness :
    ((1 : ℚ), strData "ap" ++ strData "ple") ∈
      suffixes (addQuery Node.empty (strData "ap" ++ strData "ple") 1)
        (strData "ap") ∧
    ((2 : ℚ), strData "ap" ++ strData "ple") ∈
      suffixes (addQuery (addQuery Node.empty
        (strData "ap" ++ strData "ple") 1)
        (strData "ap" ++ strData "ple") 2) (strData "ap") ∧
    ((1 : ℚ), strData "ap" ++ strData "ple") ∉
      suffixes (addQuery (addQuery Node.empty
        (strData "ap" ++ strData "ple") 1)
        (strData "ap" ++ strData "ple") 2) (strData "ap") :=
  c8_insert_roundtrip Node.empty (strData "ap") (strData "ple") 1 2
    (by decide) (by decide) (by decide) (by decide)

/-- C10: called with the empty query (the normalization of whitespace-only
or punctuation-only input), `suggest_query` returns the whole forward
trie's candidate list — it contains `(w, k)` for every stored key — rather
than an empty candidate list; at the sample corpus the full 8-element
sorted list comes back. -/
theorem c10_empty_query :
    (∀ (s : Suggester) (k : List Char) (m : Node),
        findNode s.trie k = some m → 0 < m.value →
        (m.value, k) ∈ suggestQuery s []) ∧
    suggestQuery sugC1 [] =
      [(20, strData "pie apple"), (5, strData "blueberry muffin"),
       (4, strData "grape juice"), (3, strData "banana boat"),
       (2, strData "triple threat"), (2, strData "i love apple"),
       (1, strData "apple pie"), (1, strData "apple bubble")] := by
  constructor
  · intro s k m hf hv
    have h : suggestQuery s [] = suffixes s.trie [] := rfl
    rw [h]
    exact mem_suffixes_of_stored (p := ([] : List Char)) (r := k) hf hv
  · decide

/-- C10 witness: the stored key `"grape juice"` with weight 4 is reported
by `suggest_query` on the empty query. -/
theorem c10_witness :
    ((4 : ℚ), strData "grape juice") ∈ suggestQuery sugC1 [] :=
  c10_empty_query.1 sugC1 (strData "grape juice") (Node.mk [] 4) rfl
    (by decide)

end SuggestService
